import Mathlib

/-!
Shallow embedding of the edge-defringe core `defringe_white_v2` from
`src/rembg_clean/cli.py` (lines 15-46), together with theorems settling the
frozen claims about it.

The Python function decodes a PNG to an RGBA array of 8-bit samples, converts
to float, normalizes alpha, computes an edge-band mask, un-mixes the assumed
flat background color out of the observed colors, blends by `strength` inside
the mask, optionally erodes alpha inside the mask, and re-quantizes to 8-bit.
All of this is per-pixel arithmetic, embedded here over `ℚ` (the float32
constants 1e-6 and 0.08 are taken at their decimal values 1/1000000 and 2/25).
The file I/O around the numeric core (`Image.open` / `.save`) is modelled as a
map from path names to optionally present decoded images.
-/

namespace RembgClean

/-- An 8-bit RGBA pixel: four samples, each in [0,255]
(the array elements of `np.array(im)` for an `RGBA`-converted image). -/
structure RGBA8 where
  r : Fin 256
  g : Fin 256
  b : Fin 256
  a : Fin 256
deriving DecidableEq, Repr

/-- A decoded floating-point pixel: RGB samples (nominally in [0,255]) and a
normalized alpha (nominally in [0,1]) — the per-pixel content of the arrays
`rgb` and `a` built on lines 27-28 of `cli.py`. -/
structure QPixel where
  r : ℚ
  g : ℚ
  b : ℚ
  a : ℚ
deriving DecidableEq, Repr

/-- The configuration of one call of the core: keyword arguments of
`defringe_white_v2` (lines 18-22 of `cli.py`). -/
structure Config where
  bg : ℚ
  a_low : ℚ
  a_high : ℚ
  strength : ℚ
  erode_alpha_px : ℤ
deriving DecidableEq, Repr

/-- NumPy clip: `np.clip x lo hi = min (max x lo) hi`. -/
def clip (x lo hi : ℚ) : ℚ := min (max x lo) hi

/-- Line 28: normalize an 8-bit pixel to floating samples, `a = A / 255`. -/
def decode (p : RGBA8) : QPixel :=
  ⟨(p.r.val : ℚ), (p.g.val : ℚ), (p.b.val : ℚ), (p.a.val : ℚ) / 255⟩

/-- Line 31: the edge-band mask, `(a > a_low) & (a < a_high)`. -/
def edgeBand (a_low a_high a : ℚ) : Bool :=
  decide (a_low < a) && decide (a < a_high)

/-- Line 33: `safe_a = np.clip(a, 1e-6, 1.0)`. -/
def safeA (a : ℚ) : ℚ := clip a (1/1000000) 1

/-- Lines 34-35, one channel: `fg = clip((c - bg*(1 - safe_a)) / safe_a, 0, 255)`.
Note the source uses `safe_a` both inside `(1.0 - safe_a)` and as the divisor. -/
def unmix (bg a c : ℚ) : ℚ :=
  clip ((c - bg * (1 - safeA a)) / safeA a) 0 255

/-- Lines 37-38, one channel: edge-band pixels get the strength-blend of the
observed sample with the unmixed foreground, others keep their sample. -/
def blendChannel (cfg : Config) (a c : ℚ) : ℚ :=
  if edgeBand cfg.a_low cfg.a_high a then
    (1 - cfg.strength) * c + cfg.strength * unmix cfg.bg a c
  else c

/-- Lines 40-43: `a_new = a_orig`; if `erode_alpha_px > 0` the edge-band alphas
become `clip(a - 0.08*erode_alpha_px, 0, 1)` and all others stay. -/
def alphaNew (a_low a_high : ℚ) (e : ℤ) (a : ℚ) : ℚ :=
  if 0 < e then
    if edgeBand a_low a_high a then clip (a - 2/25 * (e : ℚ)) 0 1 else a
  else a

/-- Lines 31-43 assembled per pixel, at the floating level (before the final
8-bit re-quantization of line 46). -/
def defringeQPixel (cfg : Config) (p : QPixel) : QPixel :=
  ⟨blendChannel cfg p.a p.r,
   blendChannel cfg p.a p.g,
   blendChannel cfg p.a p.b,
   alphaNew cfg.a_low cfg.a_high cfg.erode_alpha_px p.a⟩

/-- Line 46 `astype(np.uint8)` on one sample: truncate and wrap into 8 bits
(for in-range samples this is plain truncation toward zero). -/
def toU8 (q : ℚ) : Fin 256 :=
  ⟨(Int.toNat ⌊q⌋) % 256, Nat.mod_lt _ (by norm_num)⟩

/-- Line 45-46: restack the corrected RGB with `a_new * 255` and cast to 8-bit. -/
def encode (p : QPixel) : RGBA8 :=
  ⟨toU8 p.r, toU8 p.g, toU8 p.b, toU8 (p.a * 255)⟩

/-- The whole numeric core of `defringe_white_v2` on one pixel. -/
def defringePixel (cfg : Config) (p : RGBA8) : RGBA8 :=
  encode (defringeQPixel cfg (decode p))

/-- An image is a row-major grid of 8-bit RGBA pixels (rows of pixels). -/
abbrev Image : Type := List (List RGBA8)

/-- The numeric core of `defringe_white_v2` on a whole raster: every pixel is
processed independently (the NumPy code is whole-array, elementwise). -/
def defringeImage (cfg : Config) (img : Image) : Image :=
  img.map (List.map (defringePixel cfg))

/-- Failures of `defringe_white_v2`: `Image.open(png_in).convert("RGBA")` raises
when the input file is missing or not decodable; the function body contains no
other guard (in particular no threshold-ordering check). -/
inductive DefringeErr where
  | DecodeError : DefringeErr
deriving DecidableEq, Repr

/-- A file system as seen by the core: the decoded image stored at each path,
if any. -/
abbrev FS : Type := String → Option Image

/-- The function `defringe_white_v2(png_in, png_out, ...)` with its file I/O
made explicit:
load the raster at `png_in` (line 24; failure to decode is the only error),
run the numeric core (lines 25-45), save the result at `png_out` (line 46).
Returns the updated file system. -/
def defringe_white_v2 (fs : FS) (png_in png_out : String) (cfg : Config) :
    Except DefringeErr FS :=
  match fs png_in with
  | none => Except.error DefringeErr.DecodeError
  | some img =>
      Except.ok (fun p => if p = png_out then some (defringeImage cfg img) else fs p)

/-! ### Helper lemmas -/

theorem edgeBand_eq_false (a_low a_high a : ℚ) (h : a_high ≤ a_low) :
    edgeBand a_low a_high a = false := by
  simp only [edgeBand, Bool.and_eq_false_iff, decide_eq_false_iff_not, not_lt]
  rcases le_or_lt a a_low with h1 | h1
  · exact Or.inl h1
  · exact Or.inr (h.trans h1.le)

theorem blendChannel_of_not_edge (cfg : Config) (a c : ℚ)
    (h : edgeBand cfg.a_low cfg.a_high a = false) : blendChannel cfg a c = c := by
  simp [blendChannel, h]

theorem alphaNew_of_not_edge (a_low a_high : ℚ) (e : ℤ) (a : ℚ)
    (h : edgeBand a_low a_high a = false) : alphaNew a_low a_high e a = a := by
  simp [alphaNew, h]

theorem toU8_natCast (n : Fin 256) : toU8 ((n.val : ℚ)) = n := by
  apply Fin.ext
  simp [toU8, Int.floor_natCast, Nat.mod_eq_of_lt n.isLt]

theorem encode_decode (p : RGBA8) : encode (decode p) = p := by
  have ha : ((p.a.val : ℚ) / 255) * 255 = (p.a.val : ℚ) := by
    field_simp
  simp only [encode, decode, ha, toU8_natCast]

theorem defringeQPixel_of_empty_band (cfg : Config) (p : QPixel)
    (h : cfg.a_high ≤ cfg.a_low) : defringeQPixel cfg p = p := by
  have hb := edgeBand_eq_false cfg.a_low cfg.a_high p.a h
  simp [defringeQPixel, blendChannel_of_not_edge _ _ _ hb,
    alphaNew_of_not_edge _ _ _ _ hb]

theorem defringeImage_of_empty_band (cfg : Config) (img : Image)
    (h : cfg.a_high ≤ cfg.a_low) : defringeImage cfg img = img := by
  have hp : ∀ p : RGBA8, defringePixel cfg p = p := fun p => by
    rw [defringePixel, defringeQPixel_of_empty_band cfg (decode p) h, encode_decode]
  unfold defringeImage
  rw [show img.map (List.map (defringePixel cfg)) = img.map id by
        apply List.map_congr_left
        intro row _
        rw [show List.map (defringePixel cfg) row = row.map id from
              List.map_congr_left (fun p _ => hp p)]
        simp,
      List.map_id]

theorem edgeBand_eq_false_iff (a_low a_high a : ℚ) :
    edgeBand a_low a_high a = false ↔ (a ≤ a_low ∨ a_high ≤ a) := by
  rw [edgeBand]
  rcases le_or_lt a a_low with h1 | h1
  · simp [not_lt.2 h1, h1]
  · rcases le_or_lt a_high a with h2 | h2
    · simp [not_lt.2 h2, h2]
    · simp [h1, h2, not_le.2 h1, not_le.2 h2]

theorem edgeBand_eq_true_iff (a_low a_high a : ℚ) :
    edgeBand a_low a_high a = true ↔ (a_low < a ∧ a < a_high) := by
  simp [edgeBand]

theorem safeA_eq (a : ℚ) (h1 : 1/1000000 ≤ a) (h2 : a ≤ 1) : safeA a = a := by
  rw [safeA, clip, max_eq_left h1, min_eq_left h2]

theorem blendChannel_strength_zero (cfg : Config) (a c : ℚ)
    (hs : cfg.strength = 0) : blendChannel cfg a c = c := by
  unfold blendChannel
  split
  · rw [hs]; ring
  · rfl

theorem clip_mono (x y lo hi : ℚ) (h : x ≤ y) : clip x lo hi ≤ clip y lo hi :=
  min_le_min (max_le_max h le_rfl) le_rfl

theorem clip_bounds (x lo hi : ℚ) (h : lo ≤ hi) :
    lo ≤ clip x lo hi ∧ clip x lo hi ≤ hi :=
  ⟨le_min (le_max_right x lo) h, min_le_right _ _⟩

theorem clip_eval (x lo hi : ℚ) (h1 : lo ≤ x) (h2 : x ≤ hi) : clip x lo hi = x := by
  rw [clip, max_eq_left h1, min_eq_left h2]

theorem clip_eval_lo (x lo hi : ℚ) (h1 : x ≤ lo) (h2 : lo ≤ hi) : clip x lo hi = lo := by
  rw [clip, max_eq_right h1, min_eq_left h2]

/-! ### Claims -/

/-- A one-pixel file system used in concrete witnesses: a single white
semi-opaque pixel stored at "in.png". -/
def img0 : Image := [[⟨255, 255, 255, 255⟩]]

def fs0 : FS := fun p => if p = "in.png" then some img0 else none

/-- C9: when `a_low >= a_high` the edge-band mask `(a > a_low) & (a < a_high)`
is empty, so the numeric core of `defringe_white_v2` returns its input image
unchanged — every pixel's RGB and alpha survive the decode/encode round trip —
for every strength and erosion setting, rather than signaling an error. -/
theorem C9_empty_band_identity (cfg : Config) (img : Image)
    (h : cfg.a_high ≤ cfg.a_low) : defringeImage cfg img = img :=
  defringeImage_of_empty_band cfg img h

theorem C9_empty_band_identity_witness :
    (1 : ℚ)/10 ≤ 9/10 ∧
      defringeImage ⟨255, 9/10, 1/10, 1, 3⟩ img0 = img0 :=
  ⟨by norm_num, C9_empty_band_identity ⟨255, 9/10, 1/10, 1, 3⟩ img0 (by norm_num)⟩

/-- C1 counterexample: calling `defringe_white_v2` with `a_low = 0.9`,
`a_high = 0.1` does NOT return an error — it succeeds and writes an output
raster (equal to the input raster) to the output path. The source contains no
threshold-ordering check at all. -/
theorem C1_no_invalid_config_error :
    defringe_white_v2 fs0 "in.png" "out.png" ⟨255, 9/10, 1/10, 1, 0⟩ =
      Except.ok (fun p => if p = "out.png" then some img0 else fs0 p) := by
  have h : defringeImage ⟨255, 9/10, 1/10, 1, 0⟩ img0 = img0 :=
    defringeImage_of_empty_band _ _ (by norm_num)
  simp only [defringe_white_v2, fs0]
  norm_num [h]

/-- C1 amended: with threshold ordering violated (`a_low >= a_high`), the call
succeeds — no `InvalidConfig` error exists in the code — and the raster written
at the output path is the input raster unchanged (the edge-band mask is empty). -/
theorem C1_amended_no_error (fs : FS) (png_in png_out : String) (cfg : Config)
    (img : Image) (hin : fs png_in = some img) (h : cfg.a_high ≤ cfg.a_low) :
    defringe_white_v2 fs png_in png_out cfg =
      Except.ok (fun p => if p = png_out then some img else fs p) := by
  simp only [defringe_white_v2, hin, defringeImage_of_empty_band cfg img h]

theorem C1_amended_no_error_witness :
    fs0 "in.png" = some img0 ∧ (1 : ℚ)/10 ≤ 9/10 ∧
      defringe_white_v2 fs0 "in.png" "out.png" ⟨255, 9/10, 1/10, 1, 0⟩ =
        Except.ok (fun p => if p = "out.png" then some img0 else fs0 p) :=
  ⟨by norm_num [fs0], by norm_num,
    C1_amended_no_error fs0 "in.png" "out.png" ⟨255, 9/10, 1/10, 1, 0⟩ img0
      (by norm_num [fs0]) (by norm_num)⟩

/-- C2: for an edge-band pixel (`a_low < a < a_high`, alpha at least the
defensive floor 1e-6 and at most 1, as every realizable pixel alpha in the band
is when `a_low ≥ 0`) with `strength = 1`, each output RGB channel is exactly
`clip((observed - bg*(1 - a)) / max(a, 1e-6), 0, 255)` — the unmix formula with
the safe alpha — for every channel value and background. -/
theorem C2_strength_one_unmix (bg l h : ℚ) (e : ℤ) (c₁ c₂ c₃ a : ℚ)
    (ha1 : 1/1000000 ≤ a) (ha2 : a ≤ 1)
    (hb : edgeBand l h a = true) :
    (defringeQPixel ⟨bg, l, h, 1, e⟩ ⟨c₁, c₂, c₃, a⟩).r
        = clip ((c₁ - bg * (1 - a)) / max a (1/1000000)) 0 255 ∧
    (defringeQPixel ⟨bg, l, h, 1, e⟩ ⟨c₁, c₂, c₃, a⟩).g
        = clip ((c₂ - bg * (1 - a)) / max a (1/1000000)) 0 255 ∧
    (defringeQPixel ⟨bg, l, h, 1, e⟩ ⟨c₁, c₂, c₃, a⟩).b
        = clip ((c₃ - bg * (1 - a)) / max a (1/1000000)) 0 255 := by
  have hsa : safeA a = a := safeA_eq a ha1 ha2
  have hmax : max a (1/1000000) = a := max_eq_left ha1
  have hch : ∀ c : ℚ, blendChannel ⟨bg, l, h, 1, e⟩ a c
      = clip ((c - bg * (1 - a)) / max a (1/1000000)) 0 255 := by
    intro c
    rw [blendChannel, if_pos hb, unmix, hsa, hmax]
    ring_nf
  exact ⟨hch c₁, hch c₂, hch c₃⟩

/-- C2 at concrete inputs: alpha = 0.5, bg = 255, observed (200,200,200),
strength 1 gives (145,145,145); observed (10,10,10), alpha = 0.1, bg = 255
unmixes to -2195 and is clamped to 0. -/
theorem C2_strength_one_unmix_witness :
    ((1 : ℚ)/1000000 ≤ 1/2 ∧ (1 : ℚ)/2 ≤ 1 ∧
      edgeBand (1/20) (19/20) (1/2) = true) ∧
    (defringeQPixel ⟨255, 1/20, 19/20, 1, 0⟩ ⟨200, 200, 200, 1/2⟩).r = 145 ∧
    (defringeQPixel ⟨255, 1/20, 19/20, 1, 0⟩ ⟨200, 200, 200, 1/2⟩).g = 145 ∧
    (defringeQPixel ⟨255, 1/20, 19/20, 1, 0⟩ ⟨200, 200, 200, 1/2⟩).b = 145 ∧
    (defringeQPixel ⟨255, 1/20, 19/20, 1, 0⟩ ⟨10, 10, 10, 1/10⟩).r = 0 := by
  have h1 := C2_strength_one_unmix 255 (1/20) (19/20) 0 200 200 200 (1/2)
    (by norm_num) (by norm_num) (by norm_num [edgeBand])
  have h2 := C2_strength_one_unmix 255 (1/20) (19/20) 0 10 10 10 (1/10)
    (by norm_num) (by norm_num) (by norm_num [edgeBand])
  have e145 : ((200 : ℚ) - 255 * (1 - 1/2)) / max (1/2) (1/1000000) = 145 := by
    rw [max_eq_left (by norm_num)]; norm_num
  have e0 : ((10 : ℚ) - 255 * (1 - 1/10)) / max (1/10) (1/1000000) = -2195 := by
    rw [max_eq_left (by norm_num)]; norm_num
  refine ⟨⟨by norm_num, by norm_num, by norm_num [edgeBand]⟩, ?_, ?_, ?_, ?_⟩
  · rw [h1.1, e145]; exact clip_eval 145 0 255 (by norm_num) (by norm_num)
  · rw [h1.2.1, e145]; exact clip_eval 145 0 255 (by norm_num) (by norm_num)
  · rw [h1.2.2, e145]; exact clip_eval 145 0 255 (by norm_num) (by norm_num)
  · rw [h2.1, e0]; exact clip_eval_lo (-2195) 0 255 (by norm_num) (by norm_num)

/-- C3: a pixel outside the strict edge band (`a ≤ a_low` or `a ≥ a_high`,
where `a = A/255`) keeps its RGB samples exactly, for every configuration, and
keeps its alpha sample when `erode_alpha_px = 0`. -/
theorem C3_non_edge_pixels_untouched (cfg : Config) (p : RGBA8)
    (h : (p.a.val : ℚ)/255 ≤ cfg.a_low ∨ cfg.a_high ≤ (p.a.val : ℚ)/255) :
    (defringePixel cfg p).r = p.r ∧ (defringePixel cfg p).g = p.g ∧
    (defringePixel cfg p).b = p.b ∧
    (cfg.erode_alpha_px = 0 → (defringePixel cfg p).a = p.a) := by
  have hb : edgeBand cfg.a_low cfg.a_high ((p.a.val : ℚ)/255) = false :=
    (edgeBand_eq_false_iff _ _ _).2 h
  have hrgb : ∀ c : ℚ, blendChannel cfg ((p.a.val : ℚ)/255) c = c := fun c =>
    blendChannel_of_not_edge cfg _ c hb
  refine ⟨?_, ?_, ?_, ?_⟩
  · simp [defringePixel, defringeQPixel, decode, encode, hrgb, toU8_natCast]
  · simp [defringePixel, defringeQPixel, decode, encode, hrgb, toU8_natCast]
  · simp [defringePixel, defringeQPixel, decode, encode, hrgb, toU8_natCast]
  · intro he
    have haN : alphaNew cfg.a_low cfg.a_high cfg.erode_alpha_px ((p.a.val : ℚ)/255)
        = (p.a.val : ℚ)/255 := alphaNew_of_not_edge _ _ _ _ hb
    have hroundtrip : ((p.a.val : ℚ)/255) * 255 = (p.a.val : ℚ) := by field_simp
    simp [defringePixel, defringeQPixel, decode, encode, haN, hroundtrip, toU8_natCast]

theorem C3_non_edge_pixels_untouched_witness :
    ((19 : ℚ)/20 ≤ (255 : ℚ)/255) ∧
    (defringePixel ⟨255, 1/20, 19/20, 1, 0⟩ ⟨7, 8, 9, 255⟩).r = 7 ∧
    (defringePixel ⟨255, 1/20, 19/20, 1, 0⟩ ⟨7, 8, 9, 255⟩).g = 8 ∧
    (defringePixel ⟨255, 1/20, 19/20, 1, 0⟩ ⟨7, 8, 9, 255⟩).b = 9 ∧
    (defringePixel ⟨255, 1/20, 19/20, 1, 0⟩ ⟨7, 8, 9, 255⟩).a = 255 := by
  have h := C3_non_edge_pixels_untouched ⟨255, 1/20, 19/20, 1, 0⟩ ⟨7, 8, 9, 255⟩
    (Or.inr (by norm_num [show ((255 : Fin 256)).val = 255 from rfl]))
  exact ⟨by norm_num, h.1, h.2.1, h.2.2.1, h.2.2.2 rfl⟩

/-- C4: with `strength = 0` the blend `(1-0)*observed + 0*fg` leaves every RGB
sample of every pixel (edge-band or not) unchanged through the whole core. -/
theorem C4_strength_zero_identity (cfg : Config) (p : RGBA8)
    (hs : cfg.strength = 0) :
    (defringePixel cfg p).r = p.r ∧ (defringePixel cfg p).g = p.g ∧
    (defringePixel cfg p).b = p.b := by
  have hrgb : ∀ c : ℚ, blendChannel cfg ((p.a.val : ℚ)/255) c = c := fun c =>
    blendChannel_strength_zero cfg _ c hs
  refine ⟨?_, ?_, ?_⟩ <;>
    simp [defringePixel, defringeQPixel, decode, encode, hrgb, toU8_natCast]

theorem C4_strength_zero_identity_witness :
    (0 : ℚ) = 0 ∧
    (defringePixel ⟨255, 1/20, 19/20, 0, 0⟩ ⟨10, 20, 30, 128⟩).r = 10 ∧
    (defringePixel ⟨255, 1/20, 19/20, 0, 0⟩ ⟨10, 20, 30, 128⟩).g = 20 ∧
    (defringePixel ⟨255, 1/20, 19/20, 0, 0⟩ ⟨10, 20, 30, 128⟩).b = 30 := by
  have h := C4_strength_zero_identity ⟨255, 1/20, 19/20, 0, 0⟩ ⟨10, 20, 30, 128⟩ rfl
  exact ⟨rfl, h.1, h.2.1, h.2.2⟩

/-- C5: on every edge-band pixel the corrected channel is exactly the linear
blend `(1-strength)*observed + strength*fg` of the observed sample with the
clamped unmixed foreground, with no clamp on the blended value (the formula
holds verbatim for any strength, including strength outside [0,1]). -/
theorem C5_linear_blend (cfg : Config) (c₁ c₂ c₃ a : ℚ)
    (hb : edgeBand cfg.a_low cfg.a_high a = true) :
    (defringeQPixel cfg ⟨c₁, c₂, c₃, a⟩).r
        = (1 - cfg.strength) * c₁ + cfg.strength * unmix cfg.bg a c₁ ∧
    (defringeQPixel cfg ⟨c₁, c₂, c₃, a⟩).g
        = (1 - cfg.strength) * c₂ + cfg.strength * unmix cfg.bg a c₂ ∧
    (defringeQPixel cfg ⟨c₁, c₂, c₃, a⟩).b
        = (1 - cfg.strength) * c₃ + cfg.strength * unmix cfg.bg a c₃ := by
  refine ⟨?_, ?_, ?_⟩ <;> simp [defringeQPixel, blendChannel, hb]

/-- C5 at the concrete input from the claim: strength = 1.5, observed 100,
unmixed fg = 200 (bg = 0, alpha = 0.5) yields the extrapolated value 250. -/
theorem C5_linear_blend_witness :
    edgeBand (1/20) (19/20) (1/2) = true ∧
    unmix 0 (1/2) 100 = 200 ∧
    (defringeQPixel ⟨0, 1/20, 19/20, 3/2, 0⟩ ⟨100, 100, 100, 1/2⟩).r = 250 := by
  have h := C5_linear_blend ⟨0, 1/20, 19/20, 3/2, 0⟩ 100 100 100 (1/2)
    (by norm_num [edgeBand])
  have hu : unmix 0 (1/2) 100 = 200 := by
    have hs : safeA ((1 : ℚ)/2) = 1/2 := clip_eval _ _ _ (by norm_num) (by norm_num)
    rw [unmix, hs, show ((100 : ℚ) - 0 * (1 - 1/2)) / (1/2) = 200 by norm_num]
    exact clip_eval 200 0 255 (by norm_num) (by norm_num)
  refine ⟨by norm_num [edgeBand], hu, ?_⟩
  rw [h.1]
  show (1 - (3 : ℚ)/2) * 100 + (3 : ℚ)/2 * unmix 0 (1/2) 100 = 250
  rw [hu]; norm_num

theorem clip01_le (x a : ℚ) (hx : x ≤ a) (ha : 0 ≤ a) : clip x 0 1 ≤ a :=
  calc clip x 0 1 ≤ max x 0 := min_le_left _ _
    _ ≤ max a 0 := max_le_max hx le_rfl
    _ = a := max_eq_left ha

theorem alphaNew_anti (l h a : ℚ) (ha0 : 0 ≤ a) (e₁ e₂ : ℤ) (he : e₁ ≤ e₂) :
    alphaNew l h e₂ a ≤ alphaNew l h e₁ a := by
  by_cases hb : edgeBand l h a = true
  · by_cases h2 : 0 < e₂
    · rw [alphaNew, if_pos h2, if_pos hb]
      by_cases h1 : 0 < e₁
      · rw [alphaNew, if_pos h1, if_pos hb]
        apply clip_mono
        have hc : (e₁ : ℚ) ≤ (e₂ : ℚ) := by exact_mod_cast he
        linarith
      · rw [alphaNew, if_neg h1]
        apply clip01_le _ _ _ ha0
        have hc : (0 : ℚ) < (e₂ : ℚ) := by exact_mod_cast h2
        linarith
    · have h1 : ¬ 0 < e₁ := fun hlt => h2 (lt_of_lt_of_le hlt he)
      rw [alphaNew, if_neg h2, alphaNew, if_neg h1]
  · rw [alphaNew_of_not_edge l h e₂ a (Bool.eq_false_iff.2 hb),
      alphaNew_of_not_edge l h e₁ a (Bool.eq_false_iff.2 hb)]

/-- C6: with `erode_alpha_px = e > 0` the output (normalized) alpha of an
edge-band pixel is exactly `clip(a - 0.08*e, 0, 1)`, computed from that pixel's
alpha alone; alpha outside the band is unchanged for every `e`; for a fixed
pixel the output alpha is non-increasing in `e`; and `e = 0` leaves alpha
unchanged. -/
theorem C6_alpha_erosion (bg l h s : ℚ) (e e₁ e₂ : ℤ) (c₁ c₂ c₃ a : ℚ)
    (ha0 : 0 ≤ a) :
    (0 < e → edgeBand l h a = true →
        (defringeQPixel ⟨bg, l, h, s, e⟩ ⟨c₁, c₂, c₃, a⟩).a
          = clip (a - 2/25 * (e : ℚ)) 0 1) ∧
    (edgeBand l h a = false →
        (defringeQPixel ⟨bg, l, h, s, e⟩ ⟨c₁, c₂, c₃, a⟩).a = a) ∧
    (e₁ ≤ e₂ →
        (defringeQPixel ⟨bg, l, h, s, e₂⟩ ⟨c₁, c₂, c₃, a⟩).a
          ≤ (defringeQPixel ⟨bg, l, h, s, e₁⟩ ⟨c₁, c₂, c₃, a⟩).a) ∧
    (defringeQPixel ⟨bg, l, h, s, 0⟩ ⟨c₁, c₂, c₃, a⟩).a = a := by
  refine ⟨?_, ?_, ?_, ?_⟩
  · intro he hb
    show alphaNew l h e a = clip (a - 2/25 * (e : ℚ)) 0 1
    rw [alphaNew, if_pos he, if_pos hb]
  · intro hb
    exact alphaNew_of_not_edge l h e a hb
  · intro he
    exact alphaNew_anti l h a ha0 e₁ e₂ he
  · show alphaNew l h 0 a = a
    rw [alphaNew, if_neg (lt_irrefl 0)]

theorem C6_alpha_erosion_witness :
    (0 : ℚ) ≤ 1/2 ∧
    (defringeQPixel ⟨255, 1/20, 19/20, 1, 3⟩ ⟨100, 100, 100, 1/2⟩).a = 13/50 ∧
    (defringeQPixel ⟨255, 1/20, 19/20, 1, 3⟩ ⟨100, 100, 100, 1⟩).a = 1 ∧
    (defringeQPixel ⟨255, 1/20, 19/20, 1, 3⟩ ⟨100, 100, 100, 1/2⟩).a
      ≤ (defringeQPixel ⟨255, 1/20, 19/20, 1, 1⟩ ⟨100, 100, 100, 1/2⟩).a ∧
    (defringeQPixel ⟨255, 1/20, 19/20, 1, 0⟩ ⟨100, 100, 100, 1/2⟩).a = 1/2 := by
  have h := C6_alpha_erosion 255 (1/20) (19/20) 1 3 1 3 100 100 100 (1/2)
    (by norm_num)
  have h2 := C6_alpha_erosion 255 (1/20) (19/20) 1 3 1 3 100 100 100 1
    (by norm_num)
  refine ⟨by norm_num, ?_, ?_, ?_, ?_⟩
  · rw [h.1 (by norm_num) (by norm_num [edgeBand])]
    rw [show (1 : ℚ)/2 - 2/25 * ((3 : ℤ) : ℚ) = 13/50 by push_cast; norm_num]
    exact clip_eval _ _ _ (by norm_num) (by norm_num)
  · exact h2.2.1 ((edgeBand_eq_false_iff _ _ _).2 (Or.inr (by norm_num)))
  · exact h.2.2.1 (by norm_num)
  · exact h.2.2.2

/-- C7: the core maps each row of pixels to a row of equal length and keeps the
number of rows, so the output raster has exactly the input's width and height
— for every configuration and every input raster. -/
theorem C7_dimension_preservation (cfg : Config) (img : Image) :
    (defringeImage cfg img).length = img.length ∧
    ∀ i : ℕ, ((defringeImage cfg img).getD i []).length = (img.getD i []).length := by
  constructor
  · simp [defringeImage]
  · intro i
    rw [defringeImage, List.getD_eq_getElem?_getD, List.getD_eq_getElem?_getD,
      List.getElem?_map]
    cases himg : img[i]? with
    | none => rfl
    | some row => simp

/-- C8: `defringe_white_v2` is deterministic and touches no state outside its
input and output buffers: two runs over file systems agreeing at the input
path write the same raster at the output path, and a run leaves every path
other than the output path exactly as it was. -/
theorem C8_deterministic_no_shared_state (fs₁ fs₂ : FS) (png_in png_out : String)
    (cfg : Config) (fs₁' fs₂' : FS)
    (hin : fs₁ png_in = fs₂ png_in)
    (h₁ : defringe_white_v2 fs₁ png_in png_out cfg = Except.ok fs₁')
    (h₂ : defringe_white_v2 fs₂ png_in png_out cfg = Except.ok fs₂') :
    fs₁' png_out = fs₂' png_out ∧
    ∀ p, p ≠ png_out → (fs₁' p = fs₁ p ∧ fs₂' p = fs₂ p) := by
  unfold defringe_white_v2 at h₁ h₂
  cases hf : fs₁ png_in with
  | none =>
      rw [hf] at h₁
      exact absurd h₁ (by simp)
  | some img =>
      rw [hf] at h₁
      rw [hin.symm.trans hf] at h₂
      injection h₁ with e₁
      injection h₂ with e₂
      constructor
      · rw [← e₁, ← e₂]
        simp
      · intro p hp
        rw [← e₁, ← e₂]
        simp [hp]

def cfg8 : Config := ⟨255, 1/20, 19/20, 1, 0⟩

def fsOut : FS := fun p => if p = "out.png" then some (defringeImage cfg8 img0) else fs0 p

theorem C8_deterministic_no_shared_state_witness :
    fs0 "in.png" = fs0 "in.png" ∧
    fsOut "out.png" = fsOut "out.png" ∧
    fsOut "other.png" = fs0 "other.png" := by
  have hrun : defringe_white_v2 fs0 "in.png" "out.png" cfg8 = Except.ok fsOut := rfl
  have h := C8_deterministic_no_shared_state fs0 fs0 "in.png" "out.png" cfg8
    fsOut fsOut rfl hrun hrun
  exact ⟨rfl, h.1, (h.2 "other.png" (by decide)).1⟩

theorem unmix_bounds (bg a c : ℚ) : 0 ≤ unmix bg a c ∧ unmix bg a c ≤ 255 :=
  clip_bounds _ 0 255 (by norm_num)

theorem blendChannel_bounds (cfg : Config) (a c : ℚ)
    (hs0 : 0 ≤ cfg.strength) (hs1 : cfg.strength ≤ 1)
    (hc0 : 0 ≤ c) (hc1 : c ≤ 255) :
    0 ≤ blendChannel cfg a c ∧ blendChannel cfg a c ≤ 255 := by
  unfold blendChannel
  split
  · obtain ⟨hu0, hu1⟩ := unmix_bounds cfg.bg a c
    constructor
    · have t1 := mul_nonneg (by linarith : (0 : ℚ) ≤ 1 - cfg.strength) hc0
      have t2 := mul_nonneg hs0 hu0
      linarith
    · have t1 := mul_le_mul_of_nonneg_left hc1 (by linarith : (0 : ℚ) ≤ 1 - cfg.strength)
      have t2 := mul_le_mul_of_nonneg_left hu1 hs0
      nlinarith
  · exact ⟨hc0, hc1⟩

theorem toU8_val_of_range (q : ℚ) (h0 : 0 ≤ q) (h1 : q ≤ 255) :
    (toU8 q).val = Int.toNat ⌊q⌋ := by
  have h255 : ⌊(255 : ℚ)⌋ = 255 := by norm_num
  have hfl : ⌊q⌋ ≤ 255 := h255 ▸ Int.floor_le_floor h1
  have hfl0 : 0 ≤ ⌊q⌋ := Int.floor_nonneg.2 h0
  show Int.toNat ⌊q⌋ % 256 = Int.toNat ⌊q⌋
  exact Nat.mod_eq_of_lt (by omega)

/-- C10: for strength in [0,1] every floating output RGB sample of every pixel
is in [0,255] — a convex combination of the observed sample and the clamped
foreground — so the final 8-bit cast is plain truncation with no wrap-around. -/
theorem C10_output_rgb_in_range (bg l h s : ℚ) (e : ℤ) (p : RGBA8)
    (hs0 : 0 ≤ s) (hs1 : s ≤ 1) :
    (0 ≤ (defringeQPixel ⟨bg, l, h, s, e⟩ (decode p)).r ∧
      (defringeQPixel ⟨bg, l, h, s, e⟩ (decode p)).r ≤ 255) ∧
    (0 ≤ (defringeQPixel ⟨bg, l, h, s, e⟩ (decode p)).g ∧
      (defringeQPixel ⟨bg, l, h, s, e⟩ (decode p)).g ≤ 255) ∧
    (0 ≤ (defringeQPixel ⟨bg, l, h, s, e⟩ (decode p)).b ∧
      (defringeQPixel ⟨bg, l, h, s, e⟩ (decode p)).b ≤ 255) ∧
    ((defringePixel ⟨bg, l, h, s, e⟩ p).r.val
        = Int.toNat ⌊(defringeQPixel ⟨bg, l, h, s, e⟩ (decode p)).r⌋ ∧
     (defringePixel ⟨bg, l, h, s, e⟩ p).g.val
        = Int.toNat ⌊(defringeQPixel ⟨bg, l, h, s, e⟩ (decode p)).g⌋ ∧
     (defringePixel ⟨bg, l, h, s, e⟩ p).b.val
        = Int.toNat ⌊(defringeQPixel ⟨bg, l, h, s, e⟩ (decode p)).b⌋) := by
  have hsample : ∀ n : Fin 256, 0 ≤ (n.val : ℚ) ∧ (n.val : ℚ) ≤ 255 := by
    intro n
    constructor
    · positivity
    · exact_mod_cast Nat.le_of_lt_succ n.isLt
  have hr := blendChannel_bounds ⟨bg, l, h, s, e⟩ ((p.a.val : ℚ)/255) (p.r.val : ℚ)
    hs0 hs1 (hsample p.r).1 (hsample p.r).2
  have hg := blendChannel_bounds ⟨bg, l, h, s, e⟩ ((p.a.val : ℚ)/255) (p.g.val : ℚ)
    hs0 hs1 (hsample p.g).1 (hsample p.g).2
  have hb := blendChannel_bounds ⟨bg, l, h, s, e⟩ ((p.a.val : ℚ)/255) (p.b.val : ℚ)
    hs0 hs1 (hsample p.b).1 (hsample p.b).2
  refine ⟨hr, hg, hb, ?_, ?_, ?_⟩
  · exact toU8_val_of_range _ hr.1 hr.2
  · exact toU8_val_of_range _ hg.1 hg.2
  · exact toU8_val_of_range _ hb.1 hb.2

theorem C10_output_rgb_in_range_witness :
    (0 : ℚ) ≤ 1/2 ∧ (1 : ℚ)/2 ≤ 1 ∧
    (0 ≤ (defringeQPixel ⟨255, 1/20, 19/20, 1/2, 0⟩ (decode ⟨200, 10, 255, 128⟩)).r ∧
      (defringeQPixel ⟨255, 1/20, 19/20, 1/2, 0⟩ (decode ⟨200, 10, 255, 128⟩)).r ≤ 255) ∧
    (defringePixel ⟨255, 1/20, 19/20, 1/2, 0⟩ ⟨200, 10, 255, 128⟩).r.val
      = Int.toNat ⌊(defringeQPixel ⟨255, 1/20, 19/20, 1/2, 0⟩ (decode ⟨200, 10, 255, 128⟩)).r⌋ := by
  have h := C10_output_rgb_in_range 255 (1/20) (19/20) (1/2) 0 ⟨200, 10, 255, 128⟩
    (by norm_num) (by norm_num)
  exact ⟨by norm_num, by norm_num, h.1, h.2.2.2.1⟩

end RembgClean
